import Mathlib

/-!
Verification of `src/lib/pkcs11_attrdesc.c`: a case-insensitive
name-to-code resolver for PKCS#11 attribute identifiers.

The C file defines a static table `_a : AttributeDesc[]` of
`(CK_ATTRIBUTE_TYPE type, const char *desc)` pairs (the entries come from
the generated include `_attrinfo.h`), a comparator `compare_CKA_desc`
delegating to `strcasecmp`, and the lookup
`get_attribute_type_from_name`, which performs a libc `bsearch` over the
table and returns the matched entry's `type`, or `0xFFFFFFFF` when
`bsearch` returns `NULL`.

Strings are modelled as lists of byte values (`List Nat`); a C string is
NUL-free, which the lemmas assume only where it matters.
-/

/-- ASCII lower-casing of a single byte, as C `tolower` behaves in the
POSIX locale: bytes 65..90 (`A`..`Z`) map to 97..122, everything else is
unchanged. -/
def c_tolower (c : Nat) : Nat :=
  if 65 ≤ c ∧ c ≤ 90 then c + 32 else c

/-- Byte-list image of ASCII lower-casing; two strings are equal up to
ASCII case exactly when their images under `lowerList` coincide. -/
def lowerList (l : List Nat) : List Nat :=
  l.map c_tolower

/-- POSIX `strcasecmp`: compare the two strings byte by byte after
`tolower`, stopping at the first difference or at the terminating NUL
(byte 0); the result's sign reports the comparison of the first
differing lower-cased bytes. The end of a list plays the role of the
terminating NUL. -/
def strcasecmp : List Nat → List Nat → Int
  | [], [] => 0
  | [], b :: _ => -(c_tolower b : Int)
  | a :: _, [] => (c_tolower a : Int)
  | a :: as, b :: bs =>
    if c_tolower a = c_tolower b then
      if c_tolower a = 0 then 0 else strcasecmp as bs
    else (c_tolower a : Int) - (c_tolower b : Int)

/-- An entry of the attribute table: C struct `s_attr_desc` with a
`CK_ATTRIBUTE_TYPE type` (an unsigned integer) and the attribute's name
`desc`. -/
structure AttributeDesc where
  type : Nat
  desc : List Nat
deriving DecidableEq

/-- The comparison used both for ordering the table and for the search:
C `compare_CKA_desc` applied to two entries compares their `desc` fields
with `strcasecmp`. -/
def compare_CKA_desc (a b : AttributeDesc) : Int :=
  strcasecmp a.desc b.desc

/-- The sortedness invariant of the table: every entry compares strictly
below every later entry under the case-insensitive comparator. -/
abbrev sortedTable (tbl : List AttributeDesc) : Prop :=
  List.Pairwise (fun e1 e2 => compare_CKA_desc e1 e2 < 0) tbl

/-- The sortedness invariant in its adjacent form, as the spec states
it: each entry compares strictly below the next one. For a transitive
comparator this is equivalent to `sortedTable`. -/
abbrev sortedAdjacent (tbl : List AttributeDesc) : Prop :=
  List.Chain' (fun e1 e2 => compare_CKA_desc e1 e2 < 0) tbl

/-- The libc `bsearch` loop as implemented in glibc: maintain a window
`[lo, hi)`, probe the midpoint, and narrow towards the side indicated by
the comparator's sign; return the probed element when the comparator
yields 0, `none` when the window empties. The key is compared on the
left, the probed table entry on the right, exactly as `bsearch` calls
`compare_CKA_desc(&candidate, probe)` which is
`strcasecmp(candidate.desc, probe->desc)`. -/
def bsearchGo (tbl : List AttributeDesc) (key : List Nat) :
    Nat → Nat → Nat → Option AttributeDesc
  | 0, _, _ => none
  | fuel + 1, lo, hi =>
    if lo < hi then
      match tbl.get? ((lo + hi) / 2) with
      | none => none
      | some e =>
        if strcasecmp key e.desc < 0 then
          bsearchGo tbl key fuel lo ((lo + hi) / 2)
        else if 0 < strcasecmp key e.desc then
          bsearchGo tbl key fuel ((lo + hi) / 2 + 1) hi
        else some e
    else none

/-- The `bsearch` loop on the window `[lo, hi)`. Each iteration shrinks
the window, so `hi - lo` iterations always suffice; `bsearchGo`'s first
argument is that iteration bound, making the recursion structural. -/
def bsearchLoop (tbl : List AttributeDesc) (key : List Nat) (lo hi : Nat) :
    Option AttributeDesc :=
  bsearchGo tbl key (hi - lo) lo hi

/-- C `get_attribute_type_from_name`: run `bsearch` over the whole table
with the input name as key; on a hit return the matched entry's `type`,
otherwise the sentinel `0xFFFFFFFF` the function initializes `retval`
with. -/
def get_attribute_type_from_name (tbl : List AttributeDesc) (name : List Nat) :
    Nat :=
  match bsearchLoop tbl name 0 tbl.length with
  | some e => e.type
  | none => 0xFFFFFFFF

/-- Byte list of an ASCII string literal, convenience for concrete
table entries and inputs. -/
def str (s : String) : List Nat :=
  s.data.map Char.toNat

/-- Modelled from the spec: the table `_a` is populated by the generated
include `_attrinfo.h`, which is not part of the sources under study; the
spec describes it as the standardized `(code, name)` vocabulary, sorted
ascending by name under the case-insensitive comparator, with codes in
`[0, 2^32-1)` and with `CKA_CLASS` and `CKA_LABEL` carrying distinct
standard codes. This table realizes a representative slice of that
vocabulary with the standard's codes. -/
def _a : List AttributeDesc :=
  [ ⟨0x0000, str "CKA_CLASS"⟩,
    ⟨0x0102, str "CKA_ID"⟩,
    ⟨0x0100, str "CKA_KEY_TYPE"⟩,
    ⟨0x0003, str "CKA_LABEL"⟩,
    ⟨0x0120, str "CKA_MODULUS"⟩,
    ⟨0x0002, str "CKA_PRIVATE"⟩,
    ⟨0x0001, str "CKA_TOKEN"⟩,
    ⟨0x0011, str "CKA_VALUE"⟩ ]

/-- Reference lookup written from the spec's words for the refinement
claim: linearly scan the table for the first entry whose name compares
case-insensitively equal to the input and return its code, or
`0xFFFFFFFF` if none exists. -/
def linear_resolve (tbl : List AttributeDesc) (name : List Nat) : Nat :=
  match tbl.find? (fun e => strcasecmp name e.desc == 0) with
  | some e => e.type
  | none => 0xFFFFFFFF

/-- State-threaded rendering of the `bsearch` loop: the memory holding
the key string and the table is passed through every step and handed
back with the result, so the absence of writes is provable rather than
a modelling convention. Every step only reads the state. -/
def bsearchGoSt : Nat → Nat → Nat → List Nat × List AttributeDesc →
    Option AttributeDesc × (List Nat × List AttributeDesc)
  | 0, _, _, mem => (none, mem)
  | fuel + 1, lo, hi, mem =>
    if lo < hi then
      match mem.2.get? ((lo + hi) / 2) with
      | none => (none, mem)
      | some e =>
        if strcasecmp mem.1 e.desc < 0 then
          bsearchGoSt fuel lo ((lo + hi) / 2) mem
        else if 0 < strcasecmp mem.1 e.desc then
          bsearchGoSt fuel ((lo + hi) / 2 + 1) hi mem
        else (some e, mem)
    else (none, mem)

/-- State-threaded rendering of `get_attribute_type_from_name`: takes
the memory holding the name and the table, returns the looked-up code
together with the final memory. -/
def get_attribute_type_from_nameSt (mem : List Nat × List AttributeDesc) :
    Nat × (List Nat × List AttributeDesc) :=
  match bsearchGoSt (mem.2.length - 0) 0 mem.2.length mem with
  | (some e, mem2) => (e.type, mem2)
  | (none, mem2) => (0xFFFFFFFF, mem2)

example : sortedTable _a := by decide
example : get_attribute_type_from_name _a (str "cka_label") = 3 := by decide
example : get_attribute_type_from_name _a (str "CKA_NOPE") = 0xFFFFFFFF := by
  decide

theorem c_tolower_pos {c : Nat} (h : 0 < c) : 0 < c_tolower c := by
  unfold c_tolower; split <;> omega

theorem strcasecmp_self (a : List Nat) : strcasecmp a a = 0 := by
  induction a with
  | nil => rfl
  | cons x xs ih =>
    unfold strcasecmp
    rw [if_pos rfl]
    split
    · rfl
    · exact ih

theorem strcasecmp_antisymm : ∀ a b : List Nat,
    strcasecmp b a = -strcasecmp a b := by
  intro a
  induction a with
  | nil => intro b; cases b <;> simp [strcasecmp]
  | cons x xs ih =>
    intro b
    cases b with
    | nil => simp [strcasecmp]
    | cons y ys =>
      simp only [strcasecmp]
      by_cases h : c_tolower x = c_tolower y
      · rw [h]
        rw [if_pos rfl, if_pos rfl]
        split
        · simp
        · exact ih ys
      · rw [if_neg h, if_neg (fun hh => h hh.symm)]
        omega

theorem strcasecmp_congr_left : ∀ a b : List Nat, strcasecmp a b = 0 →
    ∀ c, strcasecmp a c = strcasecmp b c := by
  intro a
  induction a with
  | nil =>
    intro b hb c
    cases b with
    | nil => rfl
    | cons y ys =>
      have hy : c_tolower y = 0 := by
        simp only [strcasecmp] at hb; omega
      cases c with
      | nil => simp [strcasecmp, hy]
      | cons z zs =>
        simp only [strcasecmp]
        by_cases hz : c_tolower y = c_tolower z
        · rw [if_pos hz, if_pos hy]
          rw [← hz, hy]
          simp
        · rw [if_neg hz]
          rw [hy]
          simp
  | cons x xs ih =>
    intro b hb c
    cases b with
    | nil =>
      have hx : c_tolower x = 0 := by
        simp only [strcasecmp] at hb; omega
      cases c with
      | nil => simp [strcasecmp, hx]
      | cons z zs =>
        simp only [strcasecmp]
        by_cases hz : c_tolower x = c_tolower z
        · rw [if_pos hz, if_pos hx]
          rw [← hz, hx]
          simp
        · rw [if_neg hz]
          rw [hx]
          simp
    | cons y ys =>
      simp only [strcasecmp] at hb
      by_cases hxy : c_tolower x = c_tolower y
      · rw [if_pos hxy] at hb
        cases c with
        | nil => simp [strcasecmp, hxy]
        | cons z zs =>
          simp only [strcasecmp]
          rw [← hxy]
          by_cases hx0 : c_tolower x = 0
          · simp [hx0]
          · rw [if_neg hx0] at hb
            have hs := ih ys hb
            simp [hx0, hs zs]
      · rw [if_neg hxy] at hb
        omega

theorem strcasecmp_of_lowerList_eq : ∀ a b : List Nat,
    lowerList a = lowerList b → strcasecmp a b = 0 := by
  intro a
  induction a with
  | nil =>
    intro b hb
    cases b with
    | nil => rfl
    | cons y ys => simp [lowerList] at hb
  | cons x xs ih =>
    intro b hb
    cases b with
    | nil => simp [lowerList] at hb
    | cons y ys =>
      simp only [lowerList, List.map_cons, List.cons.injEq] at hb
      simp only [strcasecmp, if_pos hb.1]
      split
      · rfl
      · exact ih ys (by simpa [lowerList] using hb.2)

theorem strcasecmp_trans : ∀ a b c : List Nat,
    strcasecmp a b < 0 → strcasecmp b c < 0 → strcasecmp a c < 0 := by
  intro a
  induction a with
  | nil =>
    intro b c hab hbc
    cases b with
    | nil => simp [strcasecmp] at hab
    | cons y ys =>
      have hy : 0 < c_tolower y := by
        simp only [strcasecmp] at hab; omega
      cases c with
      | nil => simp only [strcasecmp] at hbc; omega
      | cons z zs =>
        simp only [strcasecmp] at hbc ⊢
        split_ifs at hbc <;> omega
  | cons x xs ih =>
    intro b c hab hbc
    cases b with
    | nil => simp only [strcasecmp] at hab; omega
    | cons y ys =>
      cases c with
      | nil => simp only [strcasecmp] at hbc; omega
      | cons z zs =>
        simp only [strcasecmp] at hab hbc ⊢
        split_ifs at hab hbc ⊢ <;> first | omega | exact ih ys zs hab hbc

theorem sorted_of_adjacent (tbl : List AttributeDesc)
    (h : sortedAdjacent tbl) : sortedTable tbl := by
  haveI : IsTrans AttributeDesc (fun e1 e2 => compare_CKA_desc e1 e2 < 0) :=
    ⟨fun a b c hab hbc => strcasecmp_trans a.desc b.desc c.desc hab hbc⟩
  exact List.chain'_iff_pairwise.mp h

theorem table_sortedAdjacent : sortedAdjacent _a := by
  simp only [_a, List.chain'_cons, List.chain'_singleton, and_true]
  decide


theorem bsearchGo_sound (tbl : List AttributeDesc) (key : List Nat) :
    ∀ fuel lo hi, hi ≤ tbl.length → ∀ e,
      bsearchGo tbl key fuel lo hi = some e →
      ∃ j : Fin tbl.length, lo ≤ j.val ∧ j.val < hi ∧ tbl.get j = e ∧
        strcasecmp key e.desc = 0 := by
  intro fuel
  induction fuel with
  | zero =>
    intro lo hi _ e he
    simp [bsearchGo] at he
  | succ fuel ih =>
    intro lo hi hhi e he
    simp only [bsearchGo] at he
    split at he
    case isTrue hlt =>
      split at he
      case h_1 => exact absurd he (by simp)
      case h_2 e2 hget =>
        split at he
        case isTrue hc =>
          obtain ⟨j, hj1, hj2, hj3, hj4⟩ := ih lo ((lo + hi) / 2) (by omega) e he
          exact ⟨j, hj1, by omega, hj3, hj4⟩
        case isFalse hc =>
          split at he
          case isTrue hc2 =>
            obtain ⟨j, hj1, hj2, hj3, hj4⟩ := ih ((lo + hi) / 2 + 1) hi hhi e he
            exact ⟨j, by omega, hj2, hj3, hj4⟩
          case isFalse hc2 =>
            obtain ⟨hzlen, hzget⟩ := List.get?_eq_some.mp hget
            obtain rfl : e2 = e := by simpa using he
            exact ⟨⟨(lo + hi) / 2, hzlen⟩, (by omega : lo ≤ (lo + hi) / 2),
              (by omega : (lo + hi) / 2 < hi), hzget, by omega⟩
    case isFalse hlt =>
      exact absurd he (by simp)

theorem bsearchGo_found (tbl : List AttributeDesc) (hsort : sortedTable tbl)
    (key : List Nat) :
    ∀ fuel lo hi, hi - lo ≤ fuel → hi ≤ tbl.length →
    ∀ i : Fin tbl.length, lo ≤ i.val → i.val < hi →
      strcasecmp key (tbl.get i).desc = 0 →
      bsearchGo tbl key fuel lo hi = some (tbl.get i) := by
  have hs : ∀ i j : Fin tbl.length, i < j →
      strcasecmp (tbl.get i).desc (tbl.get j).desc < 0 :=
    fun i j hij => List.pairwise_iff_get.mp hsort i j hij
  intro fuel
  induction fuel with
  | zero =>
    intro lo hi hfuel _ i hlo hhi2 _
    omega
  | succ fuel ih =>
    intro lo hi hfuel hhi i hlo hihi hm
    have hlt : lo < hi := by omega
    have hmidlen : (lo + hi) / 2 < tbl.length := by omega
    have hcongr := strcasecmp_congr_left key (tbl.get i).desc hm
    simp only [bsearchGo, if_pos hlt, List.get?_eq_get hmidlen]
    by_cases hc : strcasecmp key (tbl.get ⟨(lo + hi) / 2, hmidlen⟩).desc < 0
    · rw [if_pos hc]
      have hilt : i.val < (lo + hi) / 2 := by
        by_contra hcon
        push_neg at hcon
        rcases Nat.eq_or_lt_of_le hcon with heq | hgt
        · have : (⟨(lo + hi) / 2, hmidlen⟩ : Fin tbl.length) = i := Fin.ext heq
          rw [this] at hc
          omega
        · have h1 := hs ⟨(lo + hi) / 2, hmidlen⟩ i hgt
          have h2 := strcasecmp_antisymm (tbl.get ⟨(lo + hi) / 2, hmidlen⟩).desc
            (tbl.get i).desc
          have h3 := hcongr (tbl.get ⟨(lo + hi) / 2, hmidlen⟩).desc
          omega
      exact ih lo ((lo + hi) / 2) (by omega) (by omega) i hlo hilt hm
    · by_cases hc2 : 0 < strcasecmp key (tbl.get ⟨(lo + hi) / 2, hmidlen⟩).desc
      · rw [if_neg hc, if_pos hc2]
        have higt : (lo + hi) / 2 + 1 ≤ i.val := by
          by_contra hcon
          push_neg at hcon
          rcases Nat.eq_or_lt_of_le (Nat.lt_succ_iff.mp hcon) with heq | hltm
          · have : i = (⟨(lo + hi) / 2, hmidlen⟩ : Fin tbl.length) := Fin.ext heq
            rw [← this] at hc2
            omega
          · have h1 := hs i ⟨(lo + hi) / 2, hmidlen⟩ hltm
            have h2 := hcongr (tbl.get ⟨(lo + hi) / 2, hmidlen⟩).desc
            omega
        exact ih ((lo + hi) / 2 + 1) hi (by omega) hhi i higt hihi hm
      · rw [if_neg hc, if_neg hc2]
        have : ((lo + hi) / 2 : Nat) = i.val := by
          by_contra hne
          rcases Nat.lt_or_ge ((lo + hi) / 2) i.val with hltm | hgem
          · have h1 := hs ⟨(lo + hi) / 2, hmidlen⟩ i hltm
            have h2 := strcasecmp_antisymm (tbl.get ⟨(lo + hi) / 2, hmidlen⟩).desc
              (tbl.get i).desc
            have h3 := hcongr (tbl.get ⟨(lo + hi) / 2, hmidlen⟩).desc
            omega
          · have hltm : i.val < (lo + hi) / 2 := by omega
            have h1 := hs i ⟨(lo + hi) / 2, hmidlen⟩ hltm
            have h3 := hcongr (tbl.get ⟨(lo + hi) / 2, hmidlen⟩).desc
            omega
        have : (⟨(lo + hi) / 2, hmidlen⟩ : Fin tbl.length) = i := Fin.ext this
        rw [this]

theorem resolve_eq_of_match (tbl : List AttributeDesc) (hsort : sortedTable tbl)
    (name : List Nat) (i : Fin tbl.length)
    (hm : strcasecmp name (tbl.get i).desc = 0) :
    get_attribute_type_from_name tbl name = (tbl.get i).type := by
  unfold get_attribute_type_from_name bsearchLoop
  rw [bsearchGo_found tbl hsort name (tbl.length - 0) 0 tbl.length (by omega)
    (Nat.le_refl _) i (Nat.zero_le _) i.2 hm]

theorem resolve_eq_sentinel_of_nomatch (tbl : List AttributeDesc)
    (name : List Nat) (hnm : ∀ e ∈ tbl, strcasecmp name e.desc ≠ 0) :
    get_attribute_type_from_name tbl name = 0xFFFFFFFF := by
  unfold get_attribute_type_from_name bsearchLoop
  cases hb : bsearchGo tbl name (tbl.length - 0) 0 tbl.length with
  | none => rfl
  | some e =>
    obtain ⟨j, _, _, hj3, hj4⟩ :=
      bsearchGo_sound tbl name (tbl.length - 0) 0 tbl.length (Nat.le_refl _) e hb
    exact absurd hj4 (hnm e (List.mem_iff_get.mpr ⟨j, hj3⟩))

/-- C1: for every entry of a table sorted strictly ascending under the
case-insensitive comparator, `get_attribute_type_from_name` applied to
any string equal to that entry's name up to ASCII case (upper, lower or
mixed) returns the entry's code. -/
theorem resolve_finds_entry_upto_case (tbl : List AttributeDesc)
    (hsort : sortedAdjacent tbl) (i : Nat) (hi : i < tbl.length) (s : List Nat)
    (hcase : lowerList s = lowerList (tbl.get ⟨i, hi⟩).desc) :
    get_attribute_type_from_name tbl s = (tbl.get ⟨i, hi⟩).type :=
  resolve_eq_of_match tbl (sorted_of_adjacent tbl hsort) s ⟨i, hi⟩
    (strcasecmp_of_lowerList_eq s (tbl.get ⟨i, hi⟩).desc hcase)

theorem resolve_finds_entry_upto_case_witness :
    sortedAdjacent _a ∧ 3 < _a.length ∧
      lowerList (str "cKa_LaBeL") = lowerList ((_a.get ⟨3, by decide⟩).desc) ∧
      get_attribute_type_from_name _a (str "cKa_LaBeL") = 3 :=
  ⟨table_sortedAdjacent, by decide, by decide,
    (resolve_finds_entry_upto_case _a table_sortedAdjacent 3 (by decide)
      (str "cKa_LaBeL") (by decide)).trans (by decide)⟩

/-- C2: on a sorted table, `get_attribute_type_from_name` applied to a
string that is case-insensitively equal to no table name returns the
sentinel `0xFFFFFFFF`. Case-insensitive equality of C strings is
`strcasecmp = 0`; no other normalization (trimming, Unicode folding)
exists in the code, so names differing by whitespace simply fail the
comparison. -/
theorem resolve_unmatched_returns_sentinel (tbl : List AttributeDesc)
    (_hsort : sortedAdjacent tbl) (s : List Nat)
    (hnm : ∀ e ∈ tbl, strcasecmp s e.desc ≠ 0) :
    get_attribute_type_from_name tbl s = 0xFFFFFFFF :=
  resolve_eq_sentinel_of_nomatch tbl s hnm

theorem resolve_unmatched_returns_sentinel_witness :
    sortedAdjacent _a ∧
      (∀ e ∈ _a, strcasecmp (str "CKA_NOT_A_REAL_ATTRIBUTE") e.desc ≠ 0) ∧
      get_attribute_type_from_name _a (str "CKA_NOT_A_REAL_ATTRIBUTE") =
        0xFFFFFFFF :=
  ⟨table_sortedAdjacent, by decide,
    resolve_unmatched_returns_sentinel _a table_sortedAdjacent
      (str "CKA_NOT_A_REAL_ATTRIBUTE") (by decide)⟩

/-- C3: on a sorted table the binary-search-based
`get_attribute_type_from_name` is extensionally equal to the naive
`linear_resolve` that scans for the first case-insensitively equal name
and returns its code, or `0xFFFFFFFF` when none exists. -/
theorem resolve_equals_linear_scan (tbl : List AttributeDesc)
    (hsort : sortedAdjacent tbl) (s : List Nat) :
    get_attribute_type_from_name tbl s = linear_resolve tbl s := by
  unfold linear_resolve
  cases hf : tbl.find? (fun e => strcasecmp s e.desc == 0) with
  | none =>
    have hnm : ∀ e ∈ tbl, strcasecmp s e.desc ≠ 0 := by
      intro e he
      simpa using List.find?_eq_none.mp hf e he
    exact resolve_eq_sentinel_of_nomatch tbl s hnm
  | some e =>
    have hmem := List.mem_of_find?_eq_some hf
    have hp : strcasecmp s e.desc = 0 := by simpa using List.find?_some hf
    obtain ⟨j, hj⟩ := List.mem_iff_get.mp hmem
    have hres := resolve_eq_of_match tbl (sorted_of_adjacent tbl hsort) s j
      (by rw [hj]; exact hp)
    rw [hres, hj]

theorem resolve_equals_linear_scan_witness :
    sortedAdjacent _a ∧
      get_attribute_type_from_name _a (str "CKA_TOKEN") =
        linear_resolve _a (str "CKA_TOKEN") :=
  ⟨table_sortedAdjacent,
    resolve_equals_linear_scan _a table_sortedAdjacent (str "CKA_TOKEN")⟩

/-- C5: on a sorted table whose names are nonempty NUL-free C strings,
`get_attribute_type_from_name` applied to the empty string returns the
sentinel, because the empty string is case-insensitively equal to no
table name. -/
theorem resolve_empty_returns_sentinel (tbl : List AttributeDesc)
    (_hsort : sortedAdjacent tbl) (hvalid : ∀ e ∈ tbl, ∀ c ∈ e.desc, 0 < c)
    (hne : ∀ e ∈ tbl, e.desc ≠ []) :
    get_attribute_type_from_name tbl [] = 0xFFFFFFFF := by
  apply resolve_eq_sentinel_of_nomatch
  intro e he
  cases hd : e.desc with
  | nil => exact absurd hd (hne e he)
  | cons c cs =>
    have hc := c_tolower_pos (hvalid e he c (hd ▸ List.mem_cons_self c cs))
    simp only [strcasecmp]
    omega

theorem resolve_empty_returns_sentinel_witness :
    sortedAdjacent _a ∧ (∀ e ∈ _a, ∀ c ∈ e.desc, 0 < c) ∧
      (∀ e ∈ _a, e.desc ≠ []) ∧
      get_attribute_type_from_name _a [] = 0xFFFFFFFF :=
  ⟨table_sortedAdjacent, by decide, by decide,
    resolve_empty_returns_sentinel _a table_sortedAdjacent (by decide)
      (by decide)⟩

/-- C7: `get_attribute_type_from_name` is total as a Lean function (the
embedding is a plain terminating definition for every table and every
input string, empty or malformed) and its only outcomes are a table
entry's code or the sentinel `0xFFFFFFFF`. -/
theorem resolve_total_outcomes (tbl : List AttributeDesc) (s : List Nat) :
    get_attribute_type_from_name tbl s = 0xFFFFFFFF ∨
      ∃ e ∈ tbl, get_attribute_type_from_name tbl s = e.type := by
  unfold get_attribute_type_from_name bsearchLoop
  cases hb : bsearchGo tbl s (tbl.length - 0) 0 tbl.length with
  | none => exact Or.inl rfl
  | some e =>
    obtain ⟨j, _, _, hj3, _⟩ :=
      bsearchGo_sound tbl s (tbl.length - 0) 0 tbl.length (Nat.le_refl _) e hb
    exact Or.inr ⟨e, List.mem_iff_get.mpr ⟨j, hj3⟩, rfl⟩

/-- C8: `get_attribute_type_from_name` is deterministic over a fixed
table: two evaluations on equal input strings return the same value. -/
theorem resolve_deterministic (tbl : List AttributeDesc) (s1 s2 : List Nat)
    (h : s1 = s2) :
    get_attribute_type_from_name tbl s1 = get_attribute_type_from_name tbl s2 := by
  rw [h]

theorem resolve_deterministic_witness :
    str "CKA_LABEL" = str "CKA_LABEL" ∧
      get_attribute_type_from_name _a (str "CKA_LABEL") =
        get_attribute_type_from_name _a (str "CKA_LABEL") :=
  ⟨rfl, resolve_deterministic _a (str "CKA_LABEL") (str "CKA_LABEL") rfl⟩

/-- C9: whatever the input string, the value returned by
`get_attribute_type_from_name` is either the sentinel `0xFFFFFFFF` or
the `type` field of an entry present in the table — moreover one whose
name compares case-insensitively equal to the input. -/
theorem resolve_result_in_table_or_sentinel (tbl : List AttributeDesc)
    (s : List Nat) :
    get_attribute_type_from_name tbl s = 0xFFFFFFFF ∨
      ∃ e ∈ tbl, get_attribute_type_from_name tbl s = e.type ∧
        strcasecmp s e.desc = 0 := by
  unfold get_attribute_type_from_name bsearchLoop
  cases hb : bsearchGo tbl s (tbl.length - 0) 0 tbl.length with
  | none => exact Or.inl rfl
  | some e =>
    obtain ⟨j, _, _, hj3, hj4⟩ :=
      bsearchGo_sound tbl s (tbl.length - 0) 0 tbl.length (Nat.le_refl _) e hb
    exact Or.inr ⟨e, List.mem_iff_get.mpr ⟨j, hj3⟩, rfl, hj4⟩

/-- C4: in the constructed table every adjacent pair of entries compares
strictly negative under the case-insensitive comparator, and no two
entries compare equal under it. -/
theorem table_sorted_strict_no_dup :
    sortedAdjacent _a ∧
      _a.Pairwise (fun e1 e2 => compare_CKA_desc e1 e2 ≠ 0) :=
  ⟨table_sortedAdjacent, by decide⟩

/-- C6: the sentinel `0xFFFFFFFF` is not the `type` field of any entry
of the constructed table, so a sentinel return is distinguishable from
every successful lookup. -/
theorem sentinel_not_a_table_code : ∀ e ∈ _a, e.type ≠ 0xFFFFFFFF := by
  decide

theorem sentinel_not_a_table_code_witness :
    (⟨0x0000, str "CKA_CLASS"⟩ : AttributeDesc) ∈ _a ∧
      (⟨0x0000, str "CKA_CLASS"⟩ : AttributeDesc).type ≠ 0xFFFFFFFF :=
  ⟨by decide, sentinel_not_a_table_code ⟨0x0000, str "CKA_CLASS"⟩ (by decide)⟩

theorem bsearchGoSt_pure : ∀ fuel lo hi mem,
    bsearchGoSt fuel lo hi mem = (bsearchGo mem.2 mem.1 fuel lo hi, mem) := by
  intro fuel
  induction fuel with
  | zero => intro lo hi mem; rfl
  | succ fuel ih =>
    intro lo hi mem
    simp only [bsearchGoSt, bsearchGo]
    split
    · split
      · rfl
      · split
        · exact ih lo _ mem
        · split
          · exact ih _ hi mem
          · rfl
    · rfl

/-- C10: the lookup never modifies its input string nor the table: the
state-threaded rendering returns the memory it was given unchanged, and
its result agrees with the direct function. -/
theorem resolve_preserves_memory (tbl : List AttributeDesc) (name : List Nat) :
    (get_attribute_type_from_nameSt (name, tbl)).2 = (name, tbl) ∧
      (get_attribute_type_from_nameSt (name, tbl)).1 =
        get_attribute_type_from_name tbl name := by
  unfold get_attribute_type_from_nameSt get_attribute_type_from_name bsearchLoop
  rw [bsearchGoSt_pure]
  cases bsearchGo tbl name (tbl.length - 0) 0 tbl.length with
  | none => exact ⟨rfl, rfl⟩
  | some e => exact ⟨rfl, rfl⟩
